import Mathlib

/-!
Verification of the recipe-measures quantity-extraction engine.

The Rust sources are shallowly embedded: strings become `List Char` (with
UTF-8 byte lengths made explicit where the source works with byte offsets),
`Rational32` values become `ℚ`, and the nom parser combinators used by the
source are modelled as functions from a `ParserInput` to an
`Except`-style result carrying the remainder and the parsed value.
-/

namespace RecipeMeasures

/-- A character range, as Rust's `Range<usize>` used by the source. -/
structure CRange where
  start : ℕ
  stop : ℕ
deriving Repr, DecidableEq

/-- Strings are modelled as lists of characters. -/
abbrev Str := List Char

/-- The UTF-8 encoded length of a character (Rust `char::len_utf8`). -/
def utf8Len (c : Char) : ℕ :=
  if c.toNat < 0x80 then 1
  else if c.toNat < 0x800 then 2
  else if c.toNat < 0x10000 then 3
  else 4

/-- The byte offsets at which each character of a string starts, in order:
the first components produced by Rust's `str::char_indices`. -/
def byteOffsetsAux : Str → ℕ → List ℕ
  | [], _ => []
  | c :: rest, acc => acc :: byteOffsetsAux rest (acc + utf8Len c)

def byteOffsets (s : Str) : List ℕ := byteOffsetsAux s 0

/-- The byte offset at which character number `k` starts (the sum of the
UTF-8 lengths of the first `k` characters). -/
def byteOffsetAt (s : Str) (k : ℕ) : ℕ := ((s.take k).map utf8Len).sum

/-- Byte slicing `&s[bs..be]` at character boundaries: the characters whose
starting byte offset falls inside `[bs, be)`. -/
def byteSlice (s : Str) (bs be : ℕ) : Str :=
  ((s.zip (byteOffsets s)).filter (fun p => decide (bs ≤ p.2) && decide (p.2 < be))).map
    (fun p => p.1)

/-- `char_indexing.rs`: `char_slice`.  For a non-empty range the source walks
`char_indices`, takes the byte index of character `range.start` with one
`nth` call and the byte index of character `range.end` with a second `nth`
call on the same iterator (`nth(end - start - 1)` after `nth(start)` lands on
the absolute element `end`), and byte-slices between them; if either `nth`
returns `None` the result is `None`.  An empty range yields `Some("")`. -/
def char_slice (s : Str) (r : CRange) : Option Str :=
  if r.start < r.stop then
    match (byteOffsets s).get? r.start, (byteOffsets s).get? r.stop with
    | some bs, some be => some (byteSlice s bs be)
    | _, _ => none
  else some []

/-- `char_indexing.rs`: `char_index_for_byte`'s enumerated fold.  While the
remaining byte offset is positive it is decreased by the current character's
UTF-8 length with a saturating subtraction and the character index advances;
the first character reached with a zero remaining offset is returned, and if
the string is exhausted the total character count is returned. -/
def charIndexForByteAux : Str → ℕ → ℕ → ℕ
  | [], _, i => i
  | c :: rest, off, i => if 0 < off then charIndexForByteAux rest (off - utf8Len c) (i + 1) else i

def char_index_for_byte (s : Str) (byteOffset : ℕ) : ℕ :=
  charIndexForByteAux s byteOffset 0

theorem byteOffsetsAux_length (s : Str) (acc : ℕ) : (byteOffsetsAux s acc).length = s.length := by
  induction s generalizing acc with
  | nil => rfl
  | cons c rest ih => simp [byteOffsetsAux, ih]

theorem byteOffsets_length (s : Str) : (byteOffsets s).length = s.length :=
  byteOffsetsAux_length s 0

/-- Shared helper: a non-empty range whose end equals (or exceeds) the
character count of the string makes `char_slice` fail, because the second
`nth` call asks for a character index at or past the length. -/
theorem char_slice_stop_ge_length (s : Str) (a b : ℕ) (hlt : a < b)
    (hstop : s.length ≤ b) : char_slice s ⟨a, b⟩ = none := by
  have hnone : (byteOffsets s).get? b = none := by
    rw [List.get?_eq_none, byteOffsets_length]
    exact hstop
  unfold char_slice
  rw [if_pos hlt, hnone]
  rcases (byteOffsets s).get? a with _ | bs <;> rfl

theorem utf8Len_pos (c : Char) : 1 ≤ utf8Len c := by
  unfold utf8Len
  repeat' split
  all_goals omega

theorem byteOffsetAt_zero (s : Str) : byteOffsetAt s 0 = 0 := rfl

theorem byteOffsetAt_cons_succ (c : Char) (s : Str) (k : ℕ) :
    byteOffsetAt (c :: s) (k + 1) = utf8Len c + byteOffsetAt s k := by
  simp [byteOffsetAt, List.take_succ_cons]

theorem charIndexForByteAux_zero (s : Str) (i : ℕ) : charIndexForByteAux s 0 i = i := by
  cases s with
  | nil => rfl
  | cons c rest => simp [charIndexForByteAux]

/-- Core fact about `char_index_for_byte`: a byte offset that falls strictly
inside the character at index `k` is resolved to index `k + 1`, the character
after it.  The saturating subtraction zeroes the running offset at the
character after the split one. -/
theorem charIndexForByteAux_inside (s : Str) (k b i : ℕ) (c : Char) (hget : s.get? k = some c)
    (hlo : byteOffsetAt s k < b) (hhi : b < byteOffsetAt s k + utf8Len c) :
    charIndexForByteAux s b i = i + (k + 1) := by
  induction s generalizing k b i with
  | nil => simp at hget
  | cons hd tl ih =>
    cases k with
    | zero =>
      rw [List.get?_cons_zero, Option.some_inj] at hget
      subst hget
      rw [byteOffsetAt_zero] at hlo hhi
      have hb : 0 < b := hlo
      have hsub : b - utf8Len hd = 0 := by omega
      simp only [charIndexForByteAux, if_pos hb, hsub, charIndexForByteAux_zero]
    | succ k =>
      rw [List.get?_cons_succ] at hget
      rw [byteOffsetAt_cons_succ] at hlo hhi
      have hpos := utf8Len_pos hd
      have hb : 0 < b := by omega
      simp only [charIndexForByteAux, if_pos hb]
      rw [ih k (b - utf8Len hd) (i + 1) hget (by omega) (by omega)]
      omega

/-- C8 — the claim as written is false: byte offset 4 lands strictly inside
the 3-byte character `⅐` at character index 3 of `"456⅐⅙⅑45"`, yet
`char_index_for_byte` returns 4, the index of the following character, not 3.
(The source's own test asserts this value.) -/
theorem c8_mid_byte_skips_to_next_counterexample :
    byteOffsetAt "456⅐⅙⅑45".data 3 = 3 ∧
      "456⅐⅙⅑45".data.get? 3 = some '⅐' ∧
      utf8Len '⅐' = 3 ∧
      char_index_for_byte "456⅐⅙⅑45".data 4 = 4 ∧
      char_index_for_byte "456⅐⅙⅑45".data 4 ≠ 3 := by
  refine ⟨by decide, by decide, by decide, by decide, by decide⟩

/-- C8 (amended) — for every string and every byte offset that lands strictly
inside the character at index `k`, `char_index_for_byte` neither fails nor
runs past the rest of the string: it resolves to `k + 1`, the index of the
character immediately after the one containing the byte. -/
theorem c8_mid_byte_resolves_to_next_char (s : Str) (k b : ℕ) (c : Char)
    (hget : s.get? k = some c) (hlo : byteOffsetAt s k < b)
    (hhi : b < byteOffsetAt s k + utf8Len c) :
    char_index_for_byte s b = k + 1 := by
  unfold char_index_for_byte
  rw [charIndexForByteAux_inside s k b 0 c hget hlo hhi]
  omega

theorem c8_mid_byte_resolves_to_next_char_witness :
    char_index_for_byte "456⅐⅙⅑45".data 7 = 5 :=
  c8_mid_byte_resolves_to_next_char "456⅐⅙⅑45".data 4 7 '⅙' (by decide) (by decide)
    (by decide)

/-- C9 — `char_slice` examples and edge policy: slicing `"⅑45"` by `0..2`
yields `"⅑4"`; slicing the empty string by `0..1` yields `none`; an empty
range yields `some ""` for every string and position; and a non-empty range
extending past the available characters yields `none`. -/
theorem c9_char_slice_edge_cases :
    char_slice "⅑45".data ⟨0, 2⟩ = some "⅑4".data ∧
      char_slice "".data ⟨0, 1⟩ = none ∧
      (∀ (s : Str) (r : CRange), r.stop ≤ r.start → char_slice s r = some []) ∧
      (∀ (s : Str) (r : CRange), r.start < r.stop → s.length < r.stop →
        char_slice s r = none) := by
  refine ⟨by decide, by decide, ?_, ?_⟩
  · intro s r h
    unfold char_slice
    rw [if_neg (by omega)]
  · intro s r hlt hpast
    exact char_slice_stop_ge_length s r.start r.stop hlt (le_of_lt hpast)

theorem c9_char_slice_edge_cases_witness :
    char_slice "⅑45".data ⟨2, 1⟩ = some [] ∧ char_slice "⅑45".data ⟨1, 4⟩ = none :=
  ⟨c9_char_slice_edge_cases.2.2.1 "⅑45".data ⟨2, 1⟩ (by decide),
    c9_char_slice_edge_cases.2.2.2 "⅑45".data ⟨1, 4⟩ (by decide) (by decide)⟩

/-- C10 — a non-empty character range whose end equals the total character
count never slices successfully: `char_slice` returns `none` even though such
a range does not extend past the available characters. -/
theorem c10_char_slice_cannot_end_at_final_char (s : Str) (r : CRange)
    (hlt : r.start < r.stop) (hstop : r.stop = s.length) : char_slice s r = none :=
  char_slice_stop_ge_length s r.start r.stop hlt (le_of_eq hstop.symm)

theorem c10_char_slice_cannot_end_at_final_char_witness :
    char_slice "245".data ⟨0, 3⟩ = none :=
  c10_char_slice_cannot_end_at_final_char "245".data ⟨0, 3⟩ (by decide) (by decide)

/-! ## The dimension / unit / magnitude / measure data model

From `src/dimension.rs`, `src/units/…` and `src/magnitude.rs` /
`src/measure.rs`.  `Rational32` values are embedded as `ℚ`. -/

inductive VolumeUnit
  | Drop | Smidgen | Pinch | Dash | Teaspoon | Tablespoon | Cup | Pint | Quart | Gallon
deriving Repr, DecidableEq

inductive TemperatureUnit
  | Fahrenheit | Celsius
deriving Repr, DecidableEq

inductive Dimension
  | Volume | Temperature | Unitless
deriving Repr, DecidableEq

inductive Unit
  | Volume (u : VolumeUnit)
  | Temperature (u : TemperatureUnit)
  | Unitless (unit : String)
deriving Repr, DecidableEq

/-- `units/volume.rs`: each volume unit's conversion multiple. -/
def VolumeUnit.multiple : VolumeUnit → ℚ
  | .Drop => 1
  | .Smidgen => 3
  | .Pinch => 6
  | .Dash => 12
  | .Teaspoon => 96
  | .Tablespoon => 288
  | .Cup => 4608
  | .Pint => 9216
  | .Quart => 18432
  | .Gallon => 73728

/-- `units/volume.rs`: the alias lists produced by the `unit_macro` expansion,
in order `[description, plural, extra aliases…, abbreviation]`. -/
def VolumeUnit.aliases : VolumeUnit → List String
  | .Drop => ["drop", "drops", "gt", "gtt", "dr"]
  | .Smidgen => ["smidgen", "smidgens", "smi", "smdg"]
  | .Pinch => ["pinch", "pinches", "pn"]
  | .Dash => ["dash", "dashes", "ds"]
  | .Teaspoon => ["teaspoon", "teaspoons", "t", "tsp"]
  | .Tablespoon => ["tablespoon", "tablespoons", "Tb", "T", "tbsp"]
  | .Cup => ["cup", "cups", "c", "C"]
  | .Pint => ["pint", "pints", "pt"]
  | .Quart => ["quart", "quarts", "qt"]
  | .Gallon => ["gallon", "gallons", "gal"]

/-- `units/temperature.rs`: conversion multiples (both 1). -/
def TemperatureUnit.multiple : TemperatureUnit → ℚ
  | .Fahrenheit => 1
  | .Celsius => 1

/-- `units/temperature.rs`: alias lists from the macro expansion. -/
def TemperatureUnit.aliases : TemperatureUnit → List String
  | .Fahrenheit => ["fahrenheit", "fahrenheit", "degrees", "°F", "F"]
  | .Celsius => ["celsius", "celsius", "°C", "C"]

/-- `units/mod.rs` + `units/unitless.rs`: the `enum_dispatch` `multiple`. -/
def Unit.multiple : Unit → ℚ
  | .Volume u => u.multiple
  | .Temperature u => u.multiple
  | .Unitless _ => 1

def Unit.aliases : Unit → List String
  | .Volume u => u.aliases
  | .Temperature u => u.aliases
  | .Unitless _ => []

def Unit.dimension : Unit → Dimension
  | .Volume _ => .Volume
  | .Temperature _ => .Temperature
  | .Unitless _ => .Unitless

def Unit.unitless (name : String) : Unit := .Unitless name

/-- `units/mod.rs`: `UNITFUL_UNITS = volume::UNITS ++ temperature::UNITS`,
each in `enum_iterator` declaration order. -/
def UNITFUL_UNITS : List Unit :=
  ([.Drop, .Smidgen, .Pinch, .Dash, .Teaspoon, .Tablespoon, .Cup, .Pint, .Quart,
      .Gallon] : List VolumeUnit).map Unit.Volume ++
    ([.Fahrenheit, .Celsius] : List TemperatureUnit).map Unit.Temperature

/-- The `i32` range bounds of `Rational32 = Ratio<i32>`. -/
def i32Min : ℤ := -(2 ^ 31)

def i32Max : ℤ := 2 ^ 31 - 1

/-- A rational is representable as a `Ratio<i32>` when its canonical reduced
numerator and (positive) denominator fit in `i32`.  `Ratio` keeps values in
exactly this reduced, positive-denominator form, as `ℚ` does. -/
def repr32 (q : ℚ) : Prop :=
  i32Min ≤ q.num ∧ q.num ≤ i32Max ∧ (q.den : ℤ) ≤ i32Max

instance (q : ℚ) : Decidable (repr32 q) := by
  unfold repr32
  infer_instance

/-- `units/mod.rs` `UnitLike::value_to_base`: `value * multiple` on
`Rational32`.  num-rational's `Mul` pre-reduces by the cross gcds, so the two
component multiplications produce exactly the canonical reduced product and
overflow (a panic under debug assertions; a wrapped, unrelated value in
release — either way no correct result) exactly when that canonical result
leaves `i32`.  The overflow outcome is modelled as `none`. -/
def Unit.value_to_base (u : Unit) (value : ℚ) : Option ℚ :=
  if repr32 (value * u.multiple) then some (value * u.multiple) else none

/-- `units/mod.rs` `UnitLike::value_from_base`: `base_value / multiple` on
`Rational32`, with the same gcd-pre-reduced arithmetic and the same overflow
outcome modelled as `none`. -/
def Unit.value_from_base (u : Unit) (baseValue : ℚ) : Option ℚ :=
  if repr32 (baseValue / u.multiple) then some (baseValue / u.multiple) else none

structure SingleMeasure where
  value : ℚ
  unit : Unit
deriving Repr, DecidableEq

inductive Measure
  | Single (measure : SingleMeasure)
  | Multi (measures : List SingleMeasure)
  | Range (frm : SingleMeasure) (toM : SingleMeasure)
deriving Repr, DecidableEq

/-- `measure.rs`: `Measure::single`. -/
def Measure.single (value : ℚ) (unit : Unit) : Measure := .Single ⟨value, unit⟩

inductive Magnitude
  | Single (base_value : ℚ) (dimension : Dimension)
  | Range (from_base_value : ℚ) (to_base_value : ℚ) (dimension : Dimension)
deriving Repr, DecidableEq

def Magnitude.single (baseValue : ℚ) (dimension : Dimension) : Magnitude :=
  .Single baseValue dimension

/-- `magnitude.rs` `best_measures`: the `Single` arm is `todo!()`, which
panics at runtime; the `Range` arm returns an empty vector.  A panic is
modelled as `none`, a returned vector as `some`. -/
def Magnitude.best_measures : Magnitude → Option (List Measure)
  | .Single _ _ => none
  | .Range _ _ _ => some []

theorem Unit.multiple_pos (u : Unit) : 0 < u.multiple := by
  cases u with
  | Volume v => cases v <;> norm_num [Unit.multiple, VolumeUnit.multiple]
  | Temperature t => cases t <;> norm_num [Unit.multiple, TemperatureUnit.multiple]
  | Unitless s => norm_num [Unit.multiple]

theorem value_to_base_eq (u : Unit) (x b : ℚ) (h : u.value_to_base x = some b) :
    b = x * u.multiple := by
  rw [Unit.value_to_base] at h
  split at h
  · exact (Option.some_inj.mp h).symm
  · exact Option.noConfusion h

theorem value_from_base_eq (u : Unit) (x b : ℚ) (h : u.value_from_base x = some b) :
    b = x / u.multiple := by
  rw [Unit.value_from_base] at h
  split at h
  · exact (Option.some_inj.mp h).symm
  · exact Option.noConfusion h

/-- C1 — the claim as written is false on the code: it quantifies over every
positive exact rational, but `Rational32` arithmetic is `i32`-bounded.  At
the representable input 22369622 (in Teaspoons), converting to base computes
22369622 × 96 = 2147483712 > `i32::MAX`, which overflows instead of
returning a value, so the round-trip does not return `x`. -/
theorem c1_overflow_counterexample :
    (0 : ℚ) < 22369622 ∧ repr32 (22369622 : ℚ) ∧
      (Unit.Volume VolumeUnit.Teaspoon).value_to_base 22369622 = none := by
  refine ⟨by norm_num, ?_, ?_⟩
  · unfold repr32
    norm_num [i32Min, i32Max]
  · have e : (22369622 : ℚ) * (Unit.Volume VolumeUnit.Teaspoon).multiple = 2147483712 := by
      norm_num [Unit.multiple, VolumeUnit.multiple]
    rw [Unit.value_to_base, e, if_neg (fun h => absurd h.2.1 (by norm_num [i32Max]))]

/-- C1 (amended) — conversion never loses precision: whenever the
`i32`-bounded conversions return values (no overflow), the round-trip
through the base in `U`, and the longer trip through a second unit `V` of
the same dimension, both return exactly `x`; failures are overflow panics,
never rounding. -/
theorem c1_conversion_round_trip (U V : Unit) (x b v1 b2 r1 r2 : ℚ) (hx : 0 < x)
    (hdim : U.dimension = V.dimension)
    (hb : U.value_to_base x = some b)
    (hr1 : U.value_from_base b = some r1)
    (hv : V.value_from_base b = some v1)
    (hb2 : V.value_to_base v1 = some b2)
    (hr2 : U.value_from_base b2 = some r2) :
    r1 = x ∧ r2 = x := by
  have hU : U.multiple ≠ 0 := ne_of_gt U.multiple_pos
  have hV : V.multiple ≠ 0 := ne_of_gt V.multiple_pos
  have e1 := value_to_base_eq U x b hb
  have e2 := value_from_base_eq U b r1 hr1
  have e3 := value_from_base_eq V b v1 hv
  have e4 := value_to_base_eq V v1 b2 hb2
  have e5 := value_from_base_eq U b2 r2 hr2
  subst e1
  subst e2
  subst e3
  subst e4
  subst e5
  constructor
  · field_simp
  · field_simp

theorem c1_conversion_round_trip_witness :
    (Unit.Volume VolumeUnit.Teaspoon).value_to_base 3 = some 288 ∧
      (Unit.Volume VolumeUnit.Teaspoon).value_from_base 288 = some 3 ∧
      (Unit.Volume VolumeUnit.Tablespoon).value_from_base 288 = some 1 ∧
      (Unit.Volume VolumeUnit.Tablespoon).value_to_base 1 = some 288 ∧
      ((3 : ℚ) = 3 ∧ (3 : ℚ) = 3) := by
  have h1 : (Unit.Volume VolumeUnit.Teaspoon).value_to_base 3 = some 288 := by
    have e : (3 : ℚ) * (Unit.Volume VolumeUnit.Teaspoon).multiple = 288 := by
      norm_num [Unit.multiple, VolumeUnit.multiple]
    rw [Unit.value_to_base, e,
      if_pos (show repr32 288 by unfold repr32; norm_num [i32Min, i32Max])]
  have h2 : (Unit.Volume VolumeUnit.Teaspoon).value_from_base 288 = some 3 := by
    have e : (288 : ℚ) / (Unit.Volume VolumeUnit.Teaspoon).multiple = 3 := by
      norm_num [Unit.multiple, VolumeUnit.multiple]
    rw [Unit.value_from_base, e,
      if_pos (show repr32 3 by unfold repr32; norm_num [i32Min, i32Max])]
  have h3 : (Unit.Volume VolumeUnit.Tablespoon).value_from_base 288 = some 1 := by
    have e : (288 : ℚ) / (Unit.Volume VolumeUnit.Tablespoon).multiple = 1 := by
      norm_num [Unit.multiple, VolumeUnit.multiple]
    rw [Unit.value_from_base, e,
      if_pos (show repr32 1 by unfold repr32; norm_num [i32Min, i32Max])]
  have h4 : (Unit.Volume VolumeUnit.Tablespoon).value_to_base 1 = some 288 := by
    have e : (1 : ℚ) * (Unit.Volume VolumeUnit.Tablespoon).multiple = 288 := by
      norm_num [Unit.multiple, VolumeUnit.multiple]
    rw [Unit.value_to_base, e,
      if_pos (show repr32 288 by unfold repr32; norm_num [i32Min, i32Max])]
  exact ⟨h1, h2, h3, h4,
    c1_conversion_round_trip (Unit.Volume VolumeUnit.Teaspoon)
      (Unit.Volume VolumeUnit.Tablespoon) 3 288 1 288 3 3 (by norm_num) rfl h1 h2 h3 h4 h2⟩

/-- C3 — the claim describes the candidate-filtering behaviour of
`best_measures`, but for a `Single` magnitude (such as 400 base volume
units) the implementation is `todo!()`: it panics and never returns any
candidate list at all. -/
theorem c3_best_measures_single_panics :
    (Magnitude.single 400 .Volume).best_measures = none := rfl

/-! ## The nom-based token parser

From `src/parser/mod.rs` and `src/parser/parse_measure.rs`.  A
`ParserInput` wraps the remaining text and the character index at which it
starts.  Every nom parser used by the source consumes a whole number of
characters and slices the input at a character boundary, where
`char_index_for_byte` yields exactly the number of characters consumed, so
advancing is modelled directly in characters.  Parse results follow nom's
`IResult`: `ok` carries the remainder and the value, `error` carries the
recoverable `nom::error::Error` (an input position plus an `ErrorKind`).
`alt` returns the error of its last alternative (`Error::or` keeps the later
error and `Error::append` is the identity), and `map_res` discards the
external error, keeping only `ErrorKind::MapRes` at the original input
(`FromExternalError for Error`). -/

structure ParserInput where
  input : Str
  charIndex : ℕ
deriving Repr, DecidableEq

/-- `ParserInput::range`. -/
def ParserInput.range (i : ParserInput) : CRange :=
  ⟨i.charIndex, i.charIndex + i.input.length⟩

def ParserInput.advance (i : ParserInput) (k : ℕ) : ParserInput :=
  ⟨i.input.drop k, i.charIndex + k⟩

inductive ErrorKind
  | digit | char | oneOf | alpha | mapRes
deriving Repr, DecidableEq

structure NomError where
  input : ParserInput
  kind : ErrorKind
deriving Repr, DecidableEq

/-- The error type returned by the `map_res` closures in the source:
`ParseError::InfiniteNumber` or a `std` integer-parse error. -/
inductive RustError
  | infiniteNumber
  | parseIntError
deriving Repr, DecidableEq

def Except.decEq {ε α : Type} [DecidableEq ε] [DecidableEq α] (x y : Except ε α) :
    Decidable (x = y) :=
  match x, y with
  | .ok a, .ok b =>
    if h : a = b then .isTrue (by rw [h])
    else .isFalse (fun hc => by injection hc; contradiction)
  | .error e, .error f =>
    if h : e = f then .isTrue (by rw [h])
    else .isFalse (fun hc => by injection hc; contradiction)
  | .ok _, .error _ => .isFalse (fun hc => by injection hc)
  | .error _, .ok _ => .isFalse (fun hc => by injection hc)

instance {ε α : Type} [DecidableEq ε] [DecidableEq α] : DecidableEq (Except ε α) :=
  Except.decEq

abbrev PResult (α : Type) := Except NomError (ParserInput × α)

abbrev NomParser (α : Type) := ParserInput → PResult α

/-- nom `multispace0`: spaces, tabs, carriage returns and newlines. -/
def isMultispace (c : Char) : Bool :=
  c = ' ' || c = '\t' || c = '\r' || c = '\n'

def multispace0 : NomParser Str := fun i =>
  let ws := i.input.takeWhile isMultispace
  .ok (i.advance ws.length, ws)

def digit1 : NomParser Str := fun i =>
  let ds := i.input.takeWhile Char.isDigit
  if ds.isEmpty then .error ⟨i, .digit⟩ else .ok (i.advance ds.length, ds)

/-- nom `alpha1` over `char` items uses `AsChar::is_alpha`, which is ASCII
alphabetic — matching Lean's `Char.isAlpha`. -/
def alpha1 : NomParser Str := fun i =>
  let ls := i.input.takeWhile Char.isAlpha
  if ls.isEmpty then .error ⟨i, .alpha⟩ else .ok (i.advance ls.length, ls)

/-- One step of nom's `u32` digit fold: `checked_mul(10)` then `checked_add`,
which together succeed exactly when `value * 10 + d` still fits in `u32`. -/
def u32Push (value d : ℕ) : Option ℕ :=
  if value * 10 + d < 2 ^ 32 then some (value * 10 + d) else none

def foldDigits : Str → ℕ → Option ℕ
  | [], acc => some acc
  | c :: rest, acc =>
    match u32Push acc (c.toNat - '0'.toNat) with
    | some v => foldDigits rest v
    | none => none

/-- nom `character::complete::u32`: one or more decimal digits folded with
overflow checking; an empty digit run or an overflow is a `Digit` error at
the original input. -/
def parseU32 : NomParser ℕ := fun i =>
  let ds := i.input.takeWhile Char.isDigit
  if ds.isEmpty then .error ⟨i, .digit⟩
  else
    match foldDigits ds 0 with
    | some v => .ok (i.advance ds.length, v)
    | none => .error ⟨i, .digit⟩

def charP (c : Char) : NomParser Char := fun i =>
  match i.input with
  | x :: _ => if x = c then .ok (i.advance 1, c) else .error ⟨i, .char⟩
  | [] => .error ⟨i, .char⟩

def oneOfP (cs : List Char) : NomParser Char := fun i =>
  match i.input with
  | x :: _ => if cs.contains x then .ok (i.advance 1, x) else .error ⟨i, .oneOf⟩
  | [] => .error ⟨i, .oneOf⟩

def pmap {α β : Type} (p : NomParser α) (f : α → β) : NomParser β := fun i =>
  match p i with
  | .ok (rem, a) => .ok (rem, f a)
  | .error e => .error e

/-- nom `map_res` with the default error type: a failing closure produces
`Error { input, code: MapRes }`, the external Rust error being discarded. -/
def pmapRes {α β : Type} (p : NomParser α) (f : α → Except RustError β) : NomParser β := fun i =>
  match p i with
  | .ok (rem, a) =>
    match f a with
    | .ok b => .ok (rem, b)
    | .error _ => .error ⟨i, .mapRes⟩
  | .error e => .error e

def valueP {α : Type} (v : α) (p : NomParser Char) : NomParser α := pmap p (fun _ => v)

/-- nom `alt` of two parsers: on failure of the first, the second is tried
and its error (the last one) is the error of the whole. -/
def alt2 {α : Type} (p q : NomParser α) : NomParser α := fun i =>
  match p i with
  | .ok r => .ok r
  | .error _ => q i

def separated_pair {α β γ : Type} (p : NomParser α) (sep : NomParser β) (q : NomParser γ) :
    NomParser (α × γ) := fun i =>
  match p i with
  | .error e => .error e
  | .ok (i1, a) =>
    match sep i1 with
    | .error e => .error e
    | .ok (i2, _) =>
      match q i2 with
      | .error e => .error e
      | .ok (i3, c) => .ok (i3, (a, c))

def tuple3 {α β γ : Type} (p : NomParser α) (q : NomParser β) (r : NomParser γ) :
    NomParser (α × β × γ) := fun i =>
  match p i with
  | .error e => .error e
  | .ok (i1, a) =>
    match q i1 with
    | .error e => .error e
    | .ok (i2, b) =>
      match r i2 with
      | .error e => .error e
      | .ok (i3, c) => .ok (i3, (a, b, c))

/-- nom `consumed`: on success, also return the input slice covering what the
inner parser consumed, starting at the original character index. -/
def consumedP {α : Type} (p : NomParser α) : NomParser (ParserInput × α) := fun i =>
  match p i with
  | .ok (rem, a) =>
    .ok (rem, (⟨i.input.take (i.input.length - rem.input.length), i.charIndex⟩, a))
  | .error e => .error e

/-- Rust `u32 as i32`: two's-complement reinterpretation. -/
def toI32 (n : ℕ) : ℤ := if n < 2 ^ 31 then (n : ℤ) else (n : ℤ) - 2 ^ 32

/-- `parse_measure.rs`: `parse_integer` — `map(u32, Rational32::from_integer(i as i32))`. -/
def parse_integer : NomParser ℚ := pmap parseU32 (fun v => ((toI32 v : ℤ) : ℚ))

/-- `parse_measure.rs`: `parse_decimal`.  The closure re-parses the fraction
digits as `u32` (an overflow is a `ParseIntError`) and adds
`fraction / 10^len` to the integer part.  The source computes `10_i32.pow`
(which cannot overflow for the fraction lengths reachable together with a
valid `u32` fraction below 10 digits); the embedding uses the exact power. -/
def parse_decimal : NomParser ℚ :=
  pmapRes (separated_pair parseU32 (tuple3 multispace0 (charP '.') multispace0) digit1)
    (fun p =>
      match foldDigits p.2 0 with
      | none => .error .parseIntError
      | some parsed =>
        .ok (((toI32 p.1 : ℤ) : ℚ) + ((toI32 parsed : ℤ) : ℚ) / (10 : ℚ) ^ p.2.length))

/-- `parse_measure.rs`: `ascii_rational` — numerator and denominator `u32`s
around an ASCII or Unicode fraction slash; a zero denominator makes the
closure fail (internally with `ParseError::InfiniteNumber`). -/
def ascii_rational : NomParser ℚ :=
  pmapRes (separated_pair parseU32 (tuple3 multispace0 (oneOfP ['/', '⁄']) multispace0) parseU32)
    (fun p =>
      if p.2 ≠ 0 then .ok (((toI32 p.1 : ℤ) : ℚ) / ((toI32 p.2 : ℤ) : ℚ))
      else .error .infiniteNumber)

/-- `parse_measure.rs`: `unicode_rational` — an `alt` chain of
`value(fraction, char(glyph))` parsers over the vulgar-fraction glyphs. -/
def unicode_rational : NomParser ℚ :=
  alt2 (valueP (1 / 4 : ℚ) (charP '¼'))
    (alt2 (valueP (1 / 2 : ℚ) (charP '½'))
      (alt2 (valueP (3 / 4 : ℚ) (charP '¾'))
        (alt2 (valueP (1 / 7 : ℚ) (charP '⅐'))
          (alt2 (valueP (1 / 9 : ℚ) (charP '⅑'))
            (alt2 (valueP (1 / 10 : ℚ) (charP '⅒'))
              (alt2 (valueP (1 / 3 : ℚ) (charP '⅓'))
                (alt2 (valueP (2 / 3 : ℚ) (charP '⅔'))
                  (alt2 (valueP (1 / 5 : ℚ) (charP '⅕'))
                    (alt2 (valueP (2 / 5 : ℚ) (charP '⅖'))
                      (alt2 (valueP (3 / 5 : ℚ) (charP '⅗'))
                        (alt2 (valueP (4 / 5 : ℚ) (charP '⅘'))
                          (alt2 (valueP (1 / 6 : ℚ) (charP '⅙'))
                            (alt2 (valueP (5 / 6 : ℚ) (charP '⅚'))
                              (alt2 (valueP (1 / 8 : ℚ) (charP '⅛'))
                                (alt2 (valueP (3 / 8 : ℚ) (charP '⅜'))
                                  (alt2 (valueP (5 / 8 : ℚ) (charP '⅝'))
                                    (valueP (7 / 8 : ℚ) (charP '⅞'))))))))))))))))))

/-- `parse_measure.rs`: `simple_rational = alt((ascii_rational, unicode_rational))`. -/
def simple_rational : NomParser ℚ := alt2 ascii_rational unicode_rational

/-- `parse_measure.rs`: `multi_rational` — `<u32> <ws> <simple_rational>`
summed as a mixed number. -/
def multi_rational : NomParser ℚ :=
  pmap (separated_pair parseU32 multispace0 simple_rational)
    (fun p => ((toI32 p.1 : ℤ) : ℚ) + p.2)

/-- `parse_measure.rs`: `parse_rational = alt((multi_rational, simple_rational))`. -/
def parse_rational : NomParser ℚ := alt2 multi_rational simple_rational

/-- The flattened `(unit, alias)` scan order of `parse_unit`'s nested loops
over `UNITFUL_UNITS`. -/
def allAliasPairs : List (Unit × String) :=
  UNITFUL_UNITS.flatMap (fun u => u.aliases.map (fun a => (u, a)))

/-- Rust `str::to_lowercase`, character by character; for the ASCII (plus
`°`) alias table and the ASCII-alphabetic words reaching the resolver this
agrees with the full Unicode lowering. -/
def strToLower (s : String) : String := ⟨s.data.map Char.toLower⟩

/-- `parse_measure.rs`: the body of `parse_unit`'s scan.  An exact alias
match returns immediately; otherwise a case-insensitive match overwrites the
`secondary` candidate (so the last one encountered wins); if the scan ends
the `secondary` fallback or a bespoke dimensionless unit is returned. -/
def findUnitAux (raw : String) : List (Unit × String) → Option Unit → Unit
  | [], secondary => secondary.getD (Unit.unitless raw)
  | (u, a) :: rest, secondary =>
    if raw = a then u
    else if strToLower raw = strToLower a then findUnitAux raw rest (some u)
    else findUnitAux raw rest secondary

def findUnit (raw : String) : Unit := findUnitAux raw allAliasPairs none

/-- `parse_measure.rs`: `parse_unit` — an `alpha1` word resolved through the
alias scan. -/
def parse_unit : NomParser Unit := fun i =>
  match alpha1 i with
  | .error e => .error e
  | .ok (rem, raw) => .ok (rem, findUnit (String.mk raw))

structure MeasureToken where
  measure : Measure
  number_range : CRange
  unit_range : CRange
  raw : Str
deriving Repr, DecidableEq

/-- `parse_measure.rs`: `parse_measure` — `alt` over the three
`<number> <ws> <unit>` shapes (integer, decimal, rational), producing the
token with the consumed sub-spans and the consumed raw prefix. -/
def parse_measure : NomParser MeasureToken := fun input =>
  match
    alt2 (tuple3 (consumedP parse_integer) multispace0 (consumedP parse_unit))
      (alt2 (tuple3 (consumedP parse_decimal) multispace0 (consumedP parse_unit))
        (tuple3 (consumedP parse_rational) multispace0 (consumedP parse_unit))) input
  with
  | .error e => .error e
  | .ok (remainder, ((number_raw, number), _, (unit_raw, unit))) =>
    .ok (remainder,
      { measure := Measure.single number unit
        number_range := number_raw.range
        unit_range := unit_raw.range
        raw := input.input.take (input.input.length - remainder.input.length) })

/-- `parse_measure.rs`: `unit_text` — slices `raw` by the unit span shifted
to the start of the token; the source calls `.expect(…)` on this, so a
`none` is a panic. -/
def MeasureToken.unit_text (t : MeasureToken) : Option Str :=
  char_slice t.raw
    ⟨t.unit_range.start - t.number_range.start, t.unit_range.stop - t.number_range.start⟩

/-! ### Consumption bookkeeping

Every parser above, on success, leaves a remainder that is a suffix of its
input, with the character index advanced by the number of characters
consumed. -/

def Consumes {α : Type} (p : NomParser α) : Prop :=
  ∀ i rem v, p i = .ok (rem, v) → ∃ k, k ≤ i.input.length ∧ rem = i.advance k

theorem ParserInput.advance_advance (i : ParserInput) (a b : ℕ) :
    (i.advance a).advance b = i.advance (a + b) := by
  simp only [ParserInput.advance, List.drop_drop]
  rw [Nat.add_assoc]

theorem ParserInput.advance_zero (i : ParserInput) : i.advance 0 = i := by
  simp [ParserInput.advance]

theorem length_takeWhile_le (p : Char → Bool) (l : Str) :
    (l.takeWhile p).length ≤ l.length := by
  induction l with
  | nil => simp [List.takeWhile]
  | cons hd tl ih =>
    rw [List.takeWhile]
    cases p hd
    · simp
    · simpa using ih

theorem consumes_multispace0 : Consumes multispace0 := by
  intro i rem v h
  unfold multispace0 at h
  rw [Except.ok.injEq, Prod.mk.injEq] at h
  exact ⟨(i.input.takeWhile isMultispace).length, length_takeWhile_le _ _, h.1.symm⟩

theorem consumes_digit1 : Consumes digit1 := by
  intro i rem v h
  simp only [digit1] at h
  split at h
  · exact absurd h (by simp)
  · rw [Except.ok.injEq, Prod.mk.injEq] at h
    exact ⟨(i.input.takeWhile Char.isDigit).length, length_takeWhile_le _ _, h.1.symm⟩

theorem consumes_alpha1 : Consumes alpha1 := by
  intro i rem v h
  simp only [alpha1] at h
  split at h
  · exact absurd h (by simp)
  · rw [Except.ok.injEq, Prod.mk.injEq] at h
    exact ⟨(i.input.takeWhile Char.isAlpha).length, length_takeWhile_le _ _, h.1.symm⟩

theorem consumes_parseU32 : Consumes parseU32 := by
  intro i rem v h
  simp only [parseU32] at h
  split at h
  · exact absurd h (by simp)
  · split at h
    · rw [Except.ok.injEq, Prod.mk.injEq] at h
      exact ⟨(i.input.takeWhile Char.isDigit).length, length_takeWhile_le _ _, h.1.symm⟩
    · exact absurd h (by simp)

theorem consumes_charP (c : Char) : Consumes (charP c) := by
  intro i rem v h
  unfold charP at h
  split at h
  · split at h
    · rw [Except.ok.injEq, Prod.mk.injEq] at h
      rename_i x rest hin _
      refine ⟨1, ?_, h.1.symm⟩
      rw [hin]
      simp
    · exact absurd h (by simp)
  · exact absurd h (by simp)

theorem consumes_oneOfP (cs : List Char) : Consumes (oneOfP cs) := by
  intro i rem v h
  unfold oneOfP at h
  split at h
  · split at h
    · rw [Except.ok.injEq, Prod.mk.injEq] at h
      rename_i x rest hin _
      refine ⟨1, ?_, h.1.symm⟩
      rw [hin]
      simp
    · exact absurd h (by simp)
  · exact absurd h (by simp)

theorem consumes_pmap {α β : Type} (p : NomParser α) (f : α → β) (hp : Consumes p) :
    Consumes (pmap p f) := by
  intro i rem v h
  unfold pmap at h
  split at h
  · rename_i rem' a heq
    rw [Except.ok.injEq, Prod.mk.injEq] at h
    obtain ⟨k, hk, hrem⟩ := hp i rem' a heq
    exact ⟨k, hk, h.1 ▸ hrem⟩
  · exact absurd h (by simp)

theorem consumes_pmapRes {α β : Type} (p : NomParser α) (f : α → Except RustError β)
    (hp : Consumes p) : Consumes (pmapRes p f) := by
  intro i rem v h
  unfold pmapRes at h
  split at h
  · rename_i rem' a heq
    split at h
    · rw [Except.ok.injEq, Prod.mk.injEq] at h
      obtain ⟨k, hk, hrem⟩ := hp i rem' a heq
      exact ⟨k, hk, h.1 ▸ hrem⟩
    · exact absurd h (by simp)
  · exact absurd h (by simp)

theorem consumes_valueP {α : Type} (v : α) (p : NomParser Char) (hp : Consumes p) :
    Consumes (valueP v p) :=
  consumes_pmap p _ hp

theorem consumes_alt2 {α : Type} (p q : NomParser α) (hp : Consumes p) (hq : Consumes q) :
    Consumes (alt2 p q) := by
  intro i rem v h
  unfold alt2 at h
  split at h
  · rename_i r heq
    rw [Except.ok.injEq] at h
    subst h
    exact hp i rem v heq
  · exact hq i rem v h

theorem consumes_separated_pair {α β γ : Type} (p : NomParser α) (sep : NomParser β)
    (q : NomParser γ) (hp : Consumes p) (hsep : Consumes sep) (hq : Consumes q) :
    Consumes (separated_pair p sep q) := by
  intro i rem v h
  unfold separated_pair at h
  split at h
  · exact absurd h (by simp)
  · rename_i i1 a heq1
    split at h
    · exact absurd h (by simp)
    · rename_i i2 b heq2
      split at h
      · exact absurd h (by simp)
      · rename_i i3 c heq3
        rw [Except.ok.injEq, Prod.mk.injEq] at h
        obtain ⟨k1, hk1, hrem1⟩ := hp i i1 a heq1
        obtain ⟨k2, hk2, hrem2⟩ := hsep i1 i2 b heq2
        obtain ⟨k3, hk3, hrem3⟩ := hq i2 i3 c heq3
        subst hrem1
        subst hrem2
        subst hrem3
        refine ⟨k1 + k2 + k3, ?_, ?_⟩
        · simp [ParserInput.advance, List.length_drop] at hk2 hk3
          omega
        · rw [← h.1, ParserInput.advance_advance, ParserInput.advance_advance, Nat.add_assoc]

theorem consumes_tuple3 {α β γ : Type} (p : NomParser α) (q : NomParser β) (r : NomParser γ)
    (hp : Consumes p) (hq : Consumes q) (hr : Consumes r) : Consumes (tuple3 p q r) := by
  intro i rem v h
  unfold tuple3 at h
  split at h
  · exact absurd h (by simp)
  · rename_i i1 a heq1
    split at h
    · exact absurd h (by simp)
    · rename_i i2 b heq2
      split at h
      · exact absurd h (by simp)
      · rename_i i3 c heq3
        rw [Except.ok.injEq, Prod.mk.injEq] at h
        obtain ⟨k1, hk1, hrem1⟩ := hp i i1 a heq1
        obtain ⟨k2, hk2, hrem2⟩ := hq i1 i2 b heq2
        obtain ⟨k3, hk3, hrem3⟩ := hr i2 i3 c heq3
        subst hrem1
        subst hrem2
        subst hrem3
        refine ⟨k1 + k2 + k3, ?_, ?_⟩
        · simp [ParserInput.advance, List.length_drop] at hk2 hk3
          omega
        · rw [← h.1, ParserInput.advance_advance, ParserInput.advance_advance, Nat.add_assoc]

theorem consumes_consumedP {α : Type} (p : NomParser α) (hp : Consumes p) :
    Consumes (consumedP p) := by
  intro i rem v h
  unfold consumedP at h
  split at h
  · rename_i rem' a heq
    rw [Except.ok.injEq, Prod.mk.injEq] at h
    obtain ⟨k, hk, hrem⟩ := hp i rem' a heq
    exact ⟨k, hk, h.1 ▸ hrem⟩
  · exact absurd h (by simp)

theorem consumes_parse_integer : Consumes parse_integer :=
  consumes_pmap _ _ consumes_parseU32

theorem consumes_parse_decimal : Consumes parse_decimal :=
  consumes_pmapRes _ _
    (consumes_separated_pair _ _ _ consumes_parseU32
      (consumes_tuple3 _ _ _ consumes_multispace0 (consumes_charP '.') consumes_multispace0)
      consumes_digit1)

theorem consumes_ascii_rational : Consumes ascii_rational :=
  consumes_pmapRes _ _
    (consumes_separated_pair _ _ _ consumes_parseU32
      (consumes_tuple3 _ _ _ consumes_multispace0 (consumes_oneOfP _) consumes_multispace0)
      consumes_parseU32)

theorem consumes_unicode_rational : Consumes unicode_rational := by
  unfold unicode_rational
  repeat' apply consumes_alt2
  all_goals exact consumes_valueP _ _ (consumes_charP _)

theorem consumes_simple_rational : Consumes simple_rational :=
  consumes_alt2 _ _ consumes_ascii_rational consumes_unicode_rational

theorem consumes_multi_rational : Consumes multi_rational :=
  consumes_pmap _ _
    (consumes_separated_pair _ _ _ consumes_parseU32 consumes_multispace0
      consumes_simple_rational)

theorem consumes_parse_rational : Consumes parse_rational :=
  consumes_alt2 _ _ consumes_multi_rational consumes_simple_rational

/-- `parse_unit` consumes at least one character: `alpha1` demands a
non-empty letter run. -/
theorem parse_unit_consumes_pos (i rem : ParserInput) (u : Unit)
    (h : parse_unit i = .ok (rem, u)) :
    ∃ k, 1 ≤ k ∧ k ≤ i.input.length ∧ rem = i.advance k := by
  unfold parse_unit at h
  split at h
  · exact absurd h (by simp)
  · rename_i rem' raw heq
    rw [Except.ok.injEq, Prod.mk.injEq] at h
    simp only [alpha1] at heq
    split at heq
    · exact absurd heq (by simp)
    · rename_i hempty
      rw [Except.ok.injEq, Prod.mk.injEq] at heq
      refine ⟨(i.input.takeWhile Char.isAlpha).length, ?_, length_takeWhile_le _ _,
        h.1 ▸ heq.1.symm⟩
      rcases hml : i.input.takeWhile Char.isAlpha with _ | ⟨c, cs⟩
      · rw [hml] at hempty
        exact absurd rfl hempty
      · exact Nat.succ_le_succ (Nat.zero_le _)

theorem consumedP_ok {α : Type} (p : NomParser α) (hp : Consumes p) (i rem span : ParserInput)
    (a : α) (h : consumedP p i = .ok (rem, (span, a))) :
    ∃ k, k ≤ i.input.length ∧ rem = i.advance k ∧ span = ⟨i.input.take k, i.charIndex⟩ := by
  unfold consumedP at h
  split at h
  · rename_i rem' a' heq
    rw [Except.ok.injEq, Prod.mk.injEq, Prod.mk.injEq] at h
    obtain ⟨k, hk, hrem⟩ := hp i rem' a' heq
    subst hrem
    refine ⟨k, hk, h.1.symm, ?_⟩
    rw [← h.2.1]
    simp only [ParserInput.advance, List.length_drop]
    have hlen : i.input.length - (i.input.length - k) = k := by omega
    rw [hlen]
  · exact absurd h (by simp)

theorem consumedP_parse_unit_ok (i rem span : ParserInput) (u : Unit)
    (h : consumedP parse_unit i = .ok (rem, (span, u))) :
    ∃ k, 1 ≤ k ∧ k ≤ i.input.length ∧ rem = i.advance k ∧
      span = ⟨i.input.take k, i.charIndex⟩ := by
  unfold consumedP at h
  split at h
  · rename_i rem' u' heq
    rw [Except.ok.injEq, Prod.mk.injEq, Prod.mk.injEq] at h
    obtain ⟨k, hk1, hk, hrem⟩ := parse_unit_consumes_pos i rem' u' heq
    subst hrem
    refine ⟨k, hk1, hk, h.1.symm, ?_⟩
    rw [← h.2.1]
    simp only [ParserInput.advance, List.length_drop]
    have hlen : i.input.length - (i.input.length - k) = k := by omega
    rw [hlen]
  · exact absurd h (by simp)

/-- All three alternatives of `parse_measure` share the shape
`tuple((consumed(number), multispace0, consumed(parse_unit)))`; on success
the spans partition the consumed prefix, and the unit span is the non-empty
tail of it. -/
theorem tuple_branch_spans {α : Type} (p : NomParser α) (hp : Consumes p)
    (i rem nraw uraw : ParserInput) (n : α) (w : Str) (u : Unit)
    (h : tuple3 (consumedP p) multispace0 (consumedP parse_unit) i =
      .ok (rem, ((nraw, n), w, (uraw, u)))) :
    ∃ k1 k2 k3, 1 ≤ k3 ∧ k1 + k2 + k3 ≤ i.input.length ∧
      nraw = ⟨i.input.take k1, i.charIndex⟩ ∧
      uraw = ⟨(i.input.drop (k1 + k2)).take k3, i.charIndex + (k1 + k2)⟩ ∧
      rem = i.advance (k1 + k2 + k3) := by
  unfold tuple3 at h
  split at h
  · exact absurd h (by simp)
  · rename_i i1 a heq1
    split at h
    · exact absurd h (by simp)
    · rename_i i2 b heq2
      split at h
      · exact absurd h (by simp)
      · rename_i i3 c heq3
        obtain ⟨ra, rn⟩ := a
        obtain ⟨ru, uu⟩ := c
        simp only [Except.ok.injEq, Prod.mk.injEq] at h
        obtain ⟨hi3, ⟨hra, hrn⟩, hb, hru, huu⟩ := h
        subst hra
        subst hrn
        subst hb
        subst hru
        subst huu
        subst hi3
        obtain ⟨k1, hk1, hrem1, hspan1⟩ := consumedP_ok p hp i i1 ra rn heq1
        subst hrem1
        obtain ⟨k2, hk2, hrem2⟩ := consumes_multispace0 (i.advance k1) i2 b heq2
        subst hrem2
        rw [ParserInput.advance_advance] at heq3
        obtain ⟨k3, hk31, hk3, hrem3, hspan3⟩ :=
          consumedP_parse_unit_ok (i.advance (k1 + k2)) i3 ru uu heq3
        simp only [ParserInput.advance, List.length_drop] at hk2 hk3 hspan3 hrem3
        refine ⟨k1, k2, k3, hk31, by omega, hspan1, hspan3, ?_⟩
        rw [hrem3]
        simp only [ParserInput.advance, List.drop_drop]
        congr 1
        omega

theorem alt2_ok {α : Type} (p q : NomParser α) (i : ParserInput) (r : ParserInput × α)
    (h : alt2 p q i = .ok r) : p i = .ok r ∨ q i = .ok r := by
  unfold alt2 at h
  split at h
  · rename_i r' heq
    rw [Except.ok.injEq] at h
    subst h
    exact Or.inl heq
  · exact Or.inr h

/-- The spans of a successfully parsed token: the number span starts the
token, the unit span is the non-empty tail of the consumed text, and `raw`
is exactly the consumed prefix. -/
theorem parse_measure_ok_spans (i rem : ParserInput) (t : MeasureToken)
    (h : parse_measure i = .ok (rem, t)) :
    ∃ k12 k3, 1 ≤ k3 ∧ k12 + k3 ≤ i.input.length ∧
      t.number_range.start = i.charIndex ∧
      t.unit_range.start = i.charIndex + k12 ∧
      t.unit_range.stop = i.charIndex + k12 + k3 ∧
      t.raw = i.input.take (k12 + k3) := by
  unfold parse_measure at h
  split at h
  · exact absurd h (by simp)
  · rename_i remainder number_raw number ws unit_raw unit heq
    rw [Except.ok.injEq, Prod.mk.injEq] at h
    obtain ⟨hrem, ht⟩ := h
    subst hrem
    have hbranch :
        ∃ k1 k2 k3, 1 ≤ k3 ∧ k1 + k2 + k3 ≤ i.input.length ∧
          number_raw = ⟨i.input.take k1, i.charIndex⟩ ∧
          unit_raw = ⟨(i.input.drop (k1 + k2)).take k3, i.charIndex + (k1 + k2)⟩ ∧
          remainder = i.advance (k1 + k2 + k3) := by
      rcases alt2_ok _ _ _ _ heq with h1 | h23
      · exact tuple_branch_spans parse_integer consumes_parse_integer i remainder number_raw
          unit_raw number ws unit h1
      · rcases alt2_ok _ _ _ _ h23 with h2 | h3
        · exact tuple_branch_spans parse_decimal consumes_parse_decimal i remainder number_raw
            unit_raw number ws unit h2
        · exact tuple_branch_spans parse_rational consumes_parse_rational i remainder number_raw
            unit_raw number ws unit h3
    obtain ⟨k1, k2, k3, hk31, hle, hnraw, huraw, hrem⟩ := hbranch
    subst hnraw
    subst huraw
    subst hrem
    subst ht
    refine ⟨k1 + k2, k3, hk31, hle, ?_, ?_, ?_, ?_⟩
    · simp only [ParserInput.range]
    · simp only [ParserInput.range]
    · simp only [ParserInput.range, List.length_take, List.length_drop]
      rw [min_eq_left (by omega), Nat.add_assoc]
    · simp only [ParserInput.advance, List.length_drop]
      congr 1
      omega

/-- C4 — implicit safety claim: for every token produced by a successful
`parse_measure`, `unit_text` never returns a value.  The unit span always
reaches the last character of the consumed raw text, `char_slice` cannot
produce a range ending at a string's final character, and the `expect` on
that `None` panics. -/
theorem c4_unit_text_never_returns (i rem : ParserInput) (t : MeasureToken)
    (h : parse_measure i = .ok (rem, t)) : t.unit_text = none := by
  obtain ⟨k12, k3, hk31, hle, hns, hus, hue, hraw⟩ := parse_measure_ok_spans i rem t h
  unfold MeasureToken.unit_text
  apply char_slice_stop_ge_length
  · simp only [hus, hue, hns]
    omega
  · simp only [hraw, hue, hns, List.length_take, min_eq_left hle]
    omega

theorem c4_unit_text_never_returns_witness :
    ∃ rem t, parse_measure ⟨"1 cup".data, 0⟩ = .ok (rem, t) ∧ t.unit_text = none := by
  refine ⟨⟨[], 5⟩,
    ⟨Measure.single 1 (.Volume .Cup), ⟨0, 1⟩, ⟨2, 5⟩, "1 cup".data⟩, ?_, ?_⟩
  · decide
  · exact c4_unit_text_never_returns ⟨"1 cup".data, 0⟩ ⟨[], 5⟩
      ⟨Measure.single 1 (.Volume .Cup), ⟨0, 1⟩, ⟨2, 5⟩, "1 cup".data⟩ (by decide)

/-! ### Pointwise evaluation lemmas for the grammar -/

theorem takeWhile_append_all (p : Char → Bool) (ds l : Str) (hds : ∀ c ∈ ds, p c = true)
    (hl : ∀ c, l.head? = some c → p c = false) : (ds ++ l).takeWhile p = ds := by
  induction ds with
  | nil =>
    rw [List.nil_append]
    cases l with
    | nil => rfl
    | cons c cs =>
      rw [List.takeWhile_cons, hl c rfl]
      simp
  | cons d ds' ih =>
    rw [List.cons_append, List.takeWhile_cons, hds d (List.mem_cons_self d ds')]
    rw [ih (fun c hc => hds c (List.mem_cons_of_mem d hc))]
    simp

theorem takeWhile_nil_of_head (p : Char → Bool) (i : Str)
    (h : ∀ c, i.head? = some c → p c = false) : i.takeWhile p = [] := by
  cases i with
  | nil => rfl
  | cons c cs =>
    rw [List.takeWhile_cons, h c rfl]
    simp

theorem drop_length_takeWhile (p : Char → Bool) (l : Str) :
    l.drop (l.takeWhile p).length = l.dropWhile p := by
  induction l with
  | nil => rfl
  | cons c cs ih =>
    rw [List.takeWhile_cons, List.dropWhile_cons]
    cases hp : p c
    · simp
    · simpa using ih

/-- `u32` on a maximal digit prefix followed by a non-digit. -/
theorem parseU32_on (ds l : Str) (n : ℕ) (hne : ds ≠ [])
    (hds : ∀ c ∈ ds, c.isDigit = true) (hl : ∀ c, l.head? = some c → c.isDigit = false) :
    parseU32 ⟨ds ++ l, n⟩ =
      match foldDigits ds 0 with
      | some v => .ok (⟨l, n + ds.length⟩, v)
      | none => .error ⟨⟨ds ++ l, n⟩, .digit⟩ := by
  have htw : (ds ++ l).takeWhile Char.isDigit = ds := takeWhile_append_all _ ds l hds hl
  simp only [parseU32, htw, ParserInput.advance]
  rw [if_neg (by simp [List.isEmpty_iff, hne]), List.drop_left]

theorem parseU32_fail (i : ParserInput) (h : ∀ c, i.input.head? = some c → c.isDigit = false) :
    parseU32 i = .error ⟨i, .digit⟩ := by
  simp only [parseU32, takeWhile_nil_of_head Char.isDigit i.input h]
  rfl

theorem digit1_fail (i : ParserInput) (h : ∀ c, i.input.head? = some c → c.isDigit = false) :
    digit1 i = .error ⟨i, .digit⟩ := by
  simp only [digit1, takeWhile_nil_of_head Char.isDigit i.input h]
  rfl

theorem alpha1_fail (i : ParserInput) (h : ∀ c, i.input.head? = some c → c.isAlpha = false) :
    alpha1 i = .error ⟨i, .alpha⟩ := by
  simp only [alpha1, takeWhile_nil_of_head Char.isAlpha i.input h]
  rfl

/-- `multispace0` always succeeds, consuming the leading whitespace. -/
theorem multispace0_eq (i : ParserInput) :
    multispace0 i = .ok (⟨i.input.dropWhile isMultispace,
      i.charIndex + (i.input.takeWhile isMultispace).length⟩, i.input.takeWhile isMultispace) := by
  simp only [multispace0, ParserInput.advance, drop_length_takeWhile]

theorem multispace0_none (i : ParserInput)
    (h : ∀ c, i.input.head? = some c → isMultispace c = false) :
    multispace0 i = .ok (i, []) := by
  simp only [multispace0, takeWhile_nil_of_head isMultispace i.input h, List.length_nil,
    ParserInput.advance, List.drop_zero, Nat.add_zero]

/-- The vulgar-fraction glyph set of `unicode_rational`. -/
def glyphChars : List Char :=
  ['¼', '½', '¾', '⅐', '⅑', '⅒', '⅓', '⅔', '⅕', '⅖', '⅗', '⅘', '⅙', '⅚', '⅛', '⅜', '⅝', '⅞']

theorem digit_not_glyph (c : Char) (h : c.isDigit = true) : ∀ g ∈ glyphChars, c ≠ g := by
  have hglyphs : ∀ g ∈ glyphChars, g.isDigit = false := by decide
  intro g hg he
  rw [he, hglyphs g hg] at h
  cases h

theorem unicode_rational_fail (i : ParserInput) (c : Char) (rest : Str)
    (hin : i.input = c :: rest) (hglyph : ∀ g ∈ glyphChars, c ≠ g) :
    unicode_rational i = .error ⟨i, .char⟩ := by
  have h1 : ¬(c = '¼') := hglyph '¼' (by decide)
  have h2 : ¬(c = '½') := hglyph '½' (by decide)
  have h3 : ¬(c = '¾') := hglyph '¾' (by decide)
  have h4 : ¬(c = '⅐') := hglyph '⅐' (by decide)
  have h5 : ¬(c = '⅑') := hglyph '⅑' (by decide)
  have h6 : ¬(c = '⅒') := hglyph '⅒' (by decide)
  have h7 : ¬(c = '⅓') := hglyph '⅓' (by decide)
  have h8 : ¬(c = '⅔') := hglyph '⅔' (by decide)
  have h9 : ¬(c = '⅕') := hglyph '⅕' (by decide)
  have h10 : ¬(c = '⅖') := hglyph '⅖' (by decide)
  have h11 : ¬(c = '⅗') := hglyph '⅗' (by decide)
  have h12 : ¬(c = '⅘') := hglyph '⅘' (by decide)
  have h13 : ¬(c = '⅙') := hglyph '⅙' (by decide)
  have h14 : ¬(c = '⅚') := hglyph '⅚' (by decide)
  have h15 : ¬(c = '⅛') := hglyph '⅛' (by decide)
  have h16 : ¬(c = '⅜') := hglyph '⅜' (by decide)
  have h17 : ¬(c = '⅝') := hglyph '⅝' (by decide)
  have h18 : ¬(c = '⅞') := hglyph '⅞' (by decide)
  simp only [unicode_rational, alt2, valueP, pmap, charP, hin, if_neg h1, if_neg h2,
    if_neg h3, if_neg h4, if_neg h5, if_neg h6, if_neg h7, if_neg h8, if_neg h9, if_neg h10,
    if_neg h11, if_neg h12, if_neg h13, if_neg h14, if_neg h15, if_neg h16, if_neg h17,
    if_neg h18]

/-- C5 — the claim is false for `"13⁄4"`: `u32` greedily consumes `"13"`, so
`multi_rational` cannot re-segment it as `1` and `3⁄4`; `simple_rational`
parses `13⁄4`, yielding 13/4, not 7/4 (the source's own test pins 13/4). -/
theorem c5_unicode_slash_counterexample :
    parse_rational ⟨"13⁄4".data, 0⟩ = .ok (⟨[], 4⟩, 13 / 4) ∧ (13 / 4 : ℚ) ≠ 7 / 4 := by
  constructor
  · have h : parse_rational ⟨"13⁄4".data, 0⟩ =
        .ok (⟨[], 4⟩, ((toI32 13 : ℤ) : ℚ) / ((toI32 4 : ℤ) : ℚ)) := rfl
    rw [h]
    norm_num [toI32]
  · norm_num

/-- C5 (amended) — the numeric grammar yields: `"0.2"` → 1/5, `"1 3/4"` →
7/4, `"1¾"` → 7/4, but `"13⁄4"` → 13/4 (the leading digit run is consumed
whole; the fraction-slash form is not re-segmented as a mixed number). -/
theorem c5_numeric_literal_values :
    parse_decimal ⟨"0.2".data, 0⟩ = .ok (⟨[], 3⟩, 1 / 5) ∧
      parse_rational ⟨"1 3/4".data, 0⟩ = .ok (⟨[], 5⟩, 7 / 4) ∧
      parse_rational ⟨"1¾".data, 0⟩ = .ok (⟨[], 2⟩, 7 / 4) ∧
      parse_rational ⟨"13⁄4".data, 0⟩ = .ok (⟨[], 4⟩, 13 / 4) := by
  refine ⟨?_, ?_, ?_, ?_⟩
  · have h : parse_decimal ⟨"0.2".data, 0⟩ =
        .ok (⟨[], 3⟩, ((toI32 0 : ℤ) : ℚ) + ((toI32 2 : ℤ) : ℚ) / (10 : ℚ) ^ 1) := rfl
    rw [h]
    norm_num [toI32]
  · have h : parse_rational ⟨"1 3/4".data, 0⟩ =
        .ok (⟨[], 5⟩,
          ((toI32 1 : ℤ) : ℚ) + ((toI32 3 : ℤ) : ℚ) / ((toI32 4 : ℤ) : ℚ)) := rfl
    rw [h]
    norm_num [toI32]
  · have h : parse_rational ⟨"1¾".data, 0⟩ =
        .ok (⟨[], 2⟩, ((toI32 1 : ℤ) : ℚ) + 3 / 4) := rfl
    rw [h]
    norm_num [toI32]
  · have h : parse_rational ⟨"13⁄4".data, 0⟩ =
        .ok (⟨[], 4⟩, ((toI32 13 : ℤ) : ℚ) / ((toI32 4 : ℤ) : ℚ)) := rfl
    rw [h]
    norm_num [toI32]

/-- C6 — the claim's "distinct error kind" is false: the zero denominator is
rejected inside the `map_res` closure with `ParseError::InfiniteNumber`, but
`map_res` discards it (keeping only `ErrorKind::MapRes`) and the `alt` chain
then returns the error of its last alternative, `unicode_rational`'s plain
`Char`-kind no-parse error — exactly the kind produced for a plainly
non-numeric input such as `"x"`. -/
theorem c6_ordinary_error_counterexample :
    parse_rational ⟨"1/0".data, 0⟩ = .error ⟨⟨"1/0".data, 0⟩, .char⟩ ∧
      parse_rational ⟨"x".data, 0⟩ = .error ⟨⟨"x".data, 0⟩, .char⟩ := by
  refine ⟨by decide, by decide⟩

theorem simple_rational_slash_zero (m : ℕ) :
    simple_rational ⟨['/', '0'], m⟩ = .error ⟨⟨['/', '0'], m⟩, .char⟩ := rfl

theorem sep_slash (m : ℕ) :
    tuple3 multispace0 (oneOfP ['/', '⁄']) multispace0 ⟨['/', '0'], m⟩ =
      .ok (⟨['0'], m + 1⟩, ([], '/', [])) := rfl

theorem parseU32_zero (m : ℕ) : parseU32 ⟨['0'], m⟩ = .ok (⟨[], m + 1⟩, 0) := rfl

theorem multispace0_slash (m : ℕ) :
    multispace0 ⟨['/', '0'], m⟩ = .ok (⟨['/', '0'], m⟩, []) := rfl

/-- C6 (amended) — for every digit string `n`, parsing `"n/0"` never
produces a value: the internal closure rejects the zero denominator (with
`ParseError::InfiniteNumber`), but the error the caller observes is an
ordinary recoverable no-parse error (`Char` kind, from the last `alt`
branch), not a distinguished infinite-number error. -/
theorem c6_zero_denominator_no_value (ds : Str) (n : ℕ) (hne : ds ≠ [])
    (hds : ∀ c ∈ ds, c.isDigit = true) :
    parse_rational ⟨ds ++ ['/', '0'], n⟩ = .error ⟨⟨ds ++ ['/', '0'], n⟩, .char⟩ := by
  have hl : ∀ c : Char, (['/', '0'] : Str).head? = some c → c.isDigit = false := by
    intro c hc
    rw [List.head?_cons, Option.some_inj] at hc
    rw [← hc]
    decide
  obtain ⟨d, ds', hds_eq⟩ : ∃ d ds', ds = d :: ds' := by
    cases ds with
    | nil => exact absurd rfl hne
    | cons d ds' => exact ⟨d, ds', rfl⟩
  subst hds_eq
  have hd : d.isDigit = true := hds d (List.mem_cons_self _ _)
  have huni : unicode_rational ⟨(d :: ds') ++ ['/', '0'], n⟩ =
      .error ⟨⟨(d :: ds') ++ ['/', '0'], n⟩, .char⟩ :=
    unicode_rational_fail _ d (ds' ++ ['/', '0']) rfl (digit_not_glyph d hd)
  have hu := parseU32_on (d :: ds') ['/', '0'] n (by simp) hds hl
  rcases hfd : foldDigits (d :: ds') 0 with _ | v
  · rw [hfd] at hu
    have hmulti : multi_rational ⟨(d :: ds') ++ ['/', '0'], n⟩ =
        .error ⟨⟨(d :: ds') ++ ['/', '0'], n⟩, .digit⟩ := by
      simp only [multi_rational, pmap, separated_pair, hu]
    have hascii : ascii_rational ⟨(d :: ds') ++ ['/', '0'], n⟩ =
        .error ⟨⟨(d :: ds') ++ ['/', '0'], n⟩, .digit⟩ := by
      simp only [ascii_rational, pmapRes, separated_pair, hu]
    have hsimple : simple_rational ⟨(d :: ds') ++ ['/', '0'], n⟩ =
        .error ⟨⟨(d :: ds') ++ ['/', '0'], n⟩, .char⟩ := by
      simp only [simple_rational, alt2, hascii, huni]
    simp only [parse_rational, alt2, hmulti, hsimple]
  · rw [hfd] at hu
    have hmulti : multi_rational ⟨(d :: ds') ++ ['/', '0'], n⟩ =
        .error ⟨⟨['/', '0'], n + (d :: ds').length⟩, .char⟩ := by
      simp only [multi_rational, pmap, separated_pair, hu, multispace0_slash,
        simple_rational_slash_zero]
    have hascii : ascii_rational ⟨(d :: ds') ++ ['/', '0'], n⟩ =
        .error ⟨⟨(d :: ds') ++ ['/', '0'], n⟩, .mapRes⟩ := by
      simp only [ascii_rational, pmapRes, separated_pair, hu, sep_slash, parseU32_zero]
      rw [if_neg (by decide)]
    have hsimple : simple_rational ⟨(d :: ds') ++ ['/', '0'], n⟩ =
        .error ⟨⟨(d :: ds') ++ ['/', '0'], n⟩, .char⟩ := by
      simp only [simple_rational, alt2, hascii, huni]
    simp only [parse_rational, alt2, hmulti, hsimple]

theorem c6_zero_denominator_no_value_witness :
    parse_rational ⟨"42/0".data, 0⟩ = .error ⟨⟨"42/0".data, 0⟩, .char⟩ :=
  c6_zero_denominator_no_value ['4', '2'] 0 (by decide) (by decide)

theorem head_cons_prop (p : Char → Bool) (c0 : Char) (l : Str) (h : p c0 = false) :
    ∀ c, ((c0 :: l) : Str).head? = some c → p c = false := by
  intro c hc
  rw [List.head?_cons, Option.some_inj] at hc
  rw [← hc]
  exact h

/-- C7 — an input whose leading digit run is followed by `'.'` and then (after
optional whitespace) no digit makes the whole token parse fail: all three
`alt` branches of `parse_measure` die (the integer branch finds no unit word
at the `'.'`, the decimal branch finds no digits after the dot, the rational
branch finds no fraction)—there is no fallback to a shorter integer match. -/
theorem c7_trailing_dot_fails (ds rest : Str) (n : ℕ) (hne : ds ≠ [])
    (hds : ∀ c ∈ ds, c.isDigit = true)
    (hrest : ∀ c, (rest.dropWhile isMultispace).head? = some c → c.isDigit = false) :
    parse_measure ⟨ds ++ '.' :: rest, n⟩ = .error ⟨⟨ds ++ '.' :: rest, n⟩, .char⟩ := by
  obtain ⟨d, ds', hds_eq⟩ : ∃ d ds', ds = d :: ds' := by
    cases ds with
    | nil => exact absurd rfl hne
    | cons d ds' => exact ⟨d, ds', rfl⟩
  subst hds_eq
  have hd : d.isDigit = true := hds d (List.mem_cons_self _ _)
  have hu := parseU32_on (d :: ds') ('.' :: rest) n (by simp) hds
    (head_cons_prop Char.isDigit '.' rest (by decide))
  have hms1 : ∀ m, multispace0 ⟨'.' :: rest, m⟩ = .ok (⟨'.' :: rest, m⟩, []) := fun m =>
    multispace0_none _ (head_cons_prop isMultispace '.' rest (by decide))
  have hpu1 : ∀ m, parse_unit ⟨'.' :: rest, m⟩ = .error ⟨⟨'.' :: rest, m⟩, .alpha⟩ := by
    intro m
    have ha := alpha1_fail ⟨'.' :: rest, m⟩ (head_cons_prop Char.isAlpha '.' rest (by decide))
    simp only [parse_unit, ha]
  have hchar1 : ∀ m, charP '.' ⟨'.' :: rest, m⟩ = .ok (⟨rest, m + 1⟩, '.') := fun m => rfl
  have honeof1 : ∀ m,
      oneOfP ['/', '⁄'] ⟨'.' :: rest, m⟩ = .error ⟨⟨'.' :: rest, m⟩, .oneOf⟩ := by
    intro m
    simp only [oneOfP]
    rw [if_neg (by decide)]
  have hu32dot : ∀ m, parseU32 ⟨'.' :: rest, m⟩ = .error ⟨⟨'.' :: rest, m⟩, .digit⟩ := fun m =>
    parseU32_fail _ (head_cons_prop Char.isDigit '.' rest (by decide))
  have huni1 : ∀ m, unicode_rational ⟨'.' :: rest, m⟩ = .error ⟨⟨'.' :: rest, m⟩, .char⟩ :=
    fun m => unicode_rational_fail _ '.' rest rfl (by decide)
  have hmsrest : ∀ m, multispace0 ⟨rest, m⟩ =
      .ok (⟨rest.dropWhile isMultispace, m + (rest.takeWhile isMultispace).length⟩,
        rest.takeWhile isMultispace) := fun m => by
    simpa using multispace0_eq ⟨rest, m⟩
  have hd1 : ∀ m, digit1 ⟨rest.dropWhile isMultispace, m⟩ =
      .error ⟨⟨rest.dropWhile isMultispace, m⟩, .digit⟩ := fun m =>
    digit1_fail _ (fun c hc => hrest c hc)
  have huni0 : unicode_rational ⟨(d :: ds') ++ '.' :: rest, n⟩ =
      .error ⟨⟨(d :: ds') ++ '.' :: rest, n⟩, .char⟩ :=
    unicode_rational_fail _ d (ds' ++ '.' :: rest) rfl (digit_not_glyph d hd)
  rcases hfd : foldDigits (d :: ds') 0 with _ | v
  · rw [hfd] at hu
    have hA0 : ∃ e,
        tuple3 (consumedP parse_integer) multispace0 (consumedP parse_unit)
          ⟨(d :: ds') ++ '.' :: rest, n⟩ = .error e := by
      simp only [tuple3, consumedP, parse_integer, pmap, hu]
      exact ⟨_, rfl⟩
    obtain ⟨eA, hA⟩ := hA0
    have hB0 : ∃ e,
        tuple3 (consumedP parse_decimal) multispace0 (consumedP parse_unit)
          ⟨(d :: ds') ++ '.' :: rest, n⟩ = .error e := by
      simp only [tuple3, consumedP, parse_decimal, pmapRes, separated_pair, hu]
      exact ⟨_, rfl⟩
    obtain ⟨eB, hB⟩ := hB0
    have hC :
        tuple3 (consumedP parse_rational) multispace0 (consumedP parse_unit)
          ⟨(d :: ds') ++ '.' :: rest, n⟩ =
          .error ⟨⟨(d :: ds') ++ '.' :: rest, n⟩, .char⟩ := by
      simp only [tuple3, consumedP, parse_rational, alt2, multi_rational, pmap,
        separated_pair, simple_rational, ascii_rational, pmapRes, hu, huni0]
    simp only [parse_measure, alt2, hA, hB, hC]
  · rw [hfd] at hu
    have hA0 : ∃ e,
        tuple3 (consumedP parse_integer) multispace0 (consumedP parse_unit)
          ⟨(d :: ds') ++ '.' :: rest, n⟩ = .error e := by
      simp only [tuple3, consumedP, parse_integer, pmap, hu, hms1, hpu1]
      exact ⟨_, rfl⟩
    obtain ⟨eA, hA⟩ := hA0
    have hB0 : ∃ e,
        tuple3 (consumedP parse_decimal) multispace0 (consumedP parse_unit)
          ⟨(d :: ds') ++ '.' :: rest, n⟩ = .error e := by
      simp only [tuple3, consumedP, parse_decimal, pmapRes, separated_pair, hu, hms1,
        hchar1, hmsrest, hd1]
      exact ⟨_, rfl⟩
    obtain ⟨eB, hB⟩ := hB0
    have hC :
        tuple3 (consumedP parse_rational) multispace0 (consumedP parse_unit)
          ⟨(d :: ds') ++ '.' :: rest, n⟩ =
          .error ⟨⟨(d :: ds') ++ '.' :: rest, n⟩, .char⟩ := by
      simp only [tuple3, consumedP, parse_rational, alt2, multi_rational, pmap,
        separated_pair, simple_rational, ascii_rational, pmapRes, hu, hms1, hu32dot, huni1,
        honeof1, huni0]
    simp only [parse_measure, alt2, hA, hB, hC]

theorem c7_trailing_dot_fails_witness :
    parse_measure ⟨"3. Line".data, 0⟩ = .error ⟨⟨"3. Line".data, 0⟩, .char⟩ :=
  c7_trailing_dot_fails ['3'] " Line".data 0 (by decide) (by decide) (by decide)

/-- The unit-resolution precedence as the spec words it (for comparison with
the source's scan loop `findUnitAux`): the first case-sensitive exact alias
match in scan order wins outright; otherwise the *last* case-insensitive
match encountered during the scan; otherwise a dimensionless unit named by
the word itself. -/
def findUnitSpec (raw : String) : Unit :=
  match allAliasPairs.find? (fun p => raw == p.2) with
  | some p => p.1
  | none =>
    match (allAliasPairs.filter (fun p => strToLower raw == strToLower p.2)).getLast? with
    | some p => p.1
    | none => Unit.unitless raw

theorem getLast?_cons_eq {α : Type} (x : α) (l : List α) :
    (x :: l).getLast? = some (l.getLast?.getD x) := by
  induction l generalizing x with
  | nil => rfl
  | cons y ys ih =>
    rw [List.getLast?_cons_cons, ih y]
    rfl

theorem findUnitAux_eq_spec (raw : String) (l : List (Unit × String)) (sec : Option Unit) :
    findUnitAux raw l sec =
      match l.find? (fun p => raw == p.2) with
      | some p => p.1
      | none =>
        match (l.filter (fun p => strToLower raw == strToLower p.2)).getLast? with
        | some p => p.1
        | none => sec.getD (Unit.unitless raw) := by
  induction l generalizing sec with
  | nil => rfl
  | cons hd tl ih =>
    obtain ⟨u, a⟩ := hd
    by_cases hx : raw = a
    · rw [List.find?_cons_of_pos _ (by simp [hx])]
      simp only [findUnitAux, if_pos hx]
    · by_cases hci : strToLower raw = strToLower a
      · rw [List.find?_cons_of_neg _ (by simp [hx])]
        rw [List.filter_cons_of_pos (by simp [hci])]
        rw [getLast?_cons_eq]
        simp only [findUnitAux, if_neg hx, if_pos hci]
        rw [ih (some u)]
        cases hfind : tl.find? (fun p => raw == p.2) with
        | some p => rfl
        | none =>
          cases hlast : (tl.filter (fun p => strToLower raw == strToLower p.2)).getLast? with
          | some q => rfl
          | none => rfl
      · rw [List.find?_cons_of_neg _ (by simp [hx])]
        rw [List.filter_cons_of_neg (by simp [hci])]
        simp only [findUnitAux, if_neg hx, if_neg hci]
        rw [ih sec]

/-- C2 — unit resolution: the scan loop realizes the documented precedence
(first exact match in scan order; otherwise last case-insensitive match;
otherwise a dimensionless unit named by the literal word), `"t"` resolves to
Teaspoon, `"T"` to Tablespoon, `"cloves"` to a dimensionless unit named
exactly `"cloves"`, and `parse_unit` succeeds on every input starting with an
(ASCII) letter. -/
theorem c2_parse_unit_resolution :
    (∀ raw : String, findUnit raw = findUnitSpec raw) ∧
      findUnit "t" = .Volume .Teaspoon ∧
      findUnit "T" = .Volume .Tablespoon ∧
      findUnit "cloves" = .Unitless "cloves" ∧
      (∀ (i : ParserInput) (c : Char) (rest : Str), i.input = c :: rest →
        c.isAlpha = true → ∃ rem u, parse_unit i = .ok (rem, u)) := by
  refine ⟨?_, by decide, by decide, by decide, ?_⟩
  · intro raw
    exact findUnitAux_eq_spec raw allAliasPairs none
  · intro i c rest hin hc
    have hls : i.input.takeWhile Char.isAlpha = c :: rest.takeWhile Char.isAlpha := by
      rw [hin, List.takeWhile_cons, hc]
      simp
    refine ⟨i.advance (c :: rest.takeWhile Char.isAlpha).length,
      findUnit (String.mk (c :: rest.takeWhile Char.isAlpha)), ?_⟩
    simp only [parse_unit, alpha1, hls]
    rfl

theorem c2_parse_unit_resolution_witness :
    findUnit "qt" = findUnitSpec "qt" ∧
      ∃ rem u, parse_unit ⟨"cloves, minced".data, 0⟩ = .ok (rem, u) :=
  ⟨c2_parse_unit_resolution.1 "qt",
    c2_parse_unit_resolution.2.2.2.2 ⟨"cloves, minced".data, 0⟩ 'c' "loves, minced".data rfl
      (by decide)⟩

end RecipeMeasures
